import Mathlib

/-!
Verification of the `WrappingHashSet` data structure (a hash set whose
iterator remembers the position it last yielded from, wrapping around and
yielding each currently-held key at most once per iterator).

The Rust source is shallowly embedded: the `HashSet` field is modelled as a
duplicate-free list (`hashset`), the `Vec<T>` of keys as a list (`keys`),
and `usize` indices as `Nat`.  `Iter::next` is translated branch for branch:
it first clamps `pos` against `hashset.len()`, then increments the
session-local `count` and signals exhaustion once `count` would exceed
`hashset.len()`, and otherwise yields `keys[pos]` and advances `pos`.
An out-of-bounds read of `keys` (a Rust panic) is made observable as the
distinguished iterator output `Step.oob`.
-/

namespace WrappingHS

variable {α : Type} [DecidableEq α]

/-- Left rotation of a list: `rot l p = l.drop p ++ l.take p`.  Used to
describe the order in which a traversal session starting at cursor `p`
yields the elements of `keys`. -/
def rot (l : List α) (p : Nat) : List α := l.drop p ++ l.take p

/-- The `WrappingHashSet` struct: membership set `hashset` (modelled as a
duplicate-free list), ordered snapshot `keys`, persistent cursor `pos`. -/
structure WrappingHashSet (α : Type) where
  hashset : List α
  keys : List α
  pos : Nat
deriving DecidableEq

/-- `WrappingHashSet::new`: empty set, empty key vector, cursor 0. -/
def WrappingHashSet.new : WrappingHashSet α := ⟨[], [], 0⟩

/-- `WrappingHashSet::insert`: if the key is already a member return `false`
and change nothing; otherwise add it to the hash set, push it onto `keys`,
and return `true`. -/
def WrappingHashSet.insert (s : WrappingHashSet α) (key : α) :
    Bool × WrappingHashSet α :=
  if key ∈ s.hashset then (false, s)
  else (true, ⟨s.hashset ++ [key], s.keys ++ [key], s.pos⟩)

/-- `WrappingHashSet::remove`: if the key is a member, remove it from the
hash set and rebuild `keys` from the remaining members, returning `true`;
otherwise return `false` and change nothing.  `pos` is untouched. -/
def WrappingHashSet.remove (s : WrappingHashSet α) (key : α) :
    Bool × WrappingHashSet α :=
  if key ∈ s.hashset then
    (true, ⟨s.hashset.erase key, s.hashset.erase key, s.pos⟩)
  else (false, s)

/-- Outcome of one `Iter::next` call: an element, exhaustion (`None` in
Rust), or an out-of-bounds read of `keys` (a Rust panic). -/
inductive Step (α : Type) where
  | item (a : α)
  | done
  | oob
deriving DecidableEq

/-- The `Iter` struct: the borrowed set plus the session-local `count`. -/
structure Iter (α : Type) where
  whs : WrappingHashSet α
  count : Nat
deriving DecidableEq

/-- The clamped cursor: `Iter::next` first resets `pos` to 0 whenever
`pos >= hashset.len()`. -/
def startIdx (s : WrappingHashSet α) : Nat :=
  if s.hashset.length ≤ s.pos then 0 else s.pos

/-- `Iter::next`, translated branch for branch from the source:
clamp `pos` against `hashset.len()`, increment `count`, signal exhaustion
(resetting `count` to 0) when `count > hashset.len()`, otherwise yield
`keys[pos]` and advance `pos`. -/
def Iter.next (it : Iter α) : Step α × Iter α :=
  if it.whs.hashset.length < it.count + 1 then
    (Step.done, ⟨⟨it.whs.hashset, it.whs.keys, startIdx it.whs⟩, 0⟩)
  else
    match it.whs.keys.get? (startIdx it.whs) with
    | some a =>
        (Step.item a, ⟨⟨it.whs.hashset, it.whs.keys, startIdx it.whs + 1⟩,
          it.count + 1⟩)
    | none =>
        (Step.oob, ⟨⟨it.whs.hashset, it.whs.keys, startIdx it.whs⟩,
          it.count + 1⟩)

/-- `WrappingHashSet::iter`: a fresh traversal session with `count = 0`. -/
def WrappingHashSet.iter (s : WrappingHashSet α) : Iter α := ⟨s, 0⟩

/-- Drive an iterator for `m` calls to `next`, collecting the outputs and
the final iterator state. -/
def Iter.runN (it : Iter α) : Nat → List (Step α) × Iter α
  | 0 => ([], it)
  | m + 1 =>
      (it.next.1 :: (it.next.2.runN m).1, (it.next.2.runN m).2)

/-- The elements actually yielded in a list of step outcomes. -/
def yields : List (Step α) → List α
  | [] => []
  | Step.item a :: rest => a :: yields rest
  | Step.done :: rest => yields rest
  | Step.oob :: rest => yields rest

/-- The structural invariant relating the membership set and the ordered
snapshot: both are duplicate-free and hold the same elements. -/
def Inv (s : WrappingHashSet α) : Prop :=
  s.hashset.Nodup ∧ s.keys.Nodup ∧ ∀ a : α, a ∈ s.hashset ↔ a ∈ s.keys

/-- States reachable from `new` by any interleaving of `insert`, `remove`
and traversal sessions (a session abandoned — or overdriven — after `m`
calls to `next`). -/
inductive Reachable : WrappingHashSet α → Prop where
  | protected new : Reachable WrappingHashSet.new
  | ins (a : α) {s : WrappingHashSet α} :
      Reachable s → Reachable (WrappingHashSet.insert s a).2
  | rem (a : α) {s : WrappingHashSet α} :
      Reachable s → Reachable (WrappingHashSet.remove s a).2
  | run (m : Nat) {s : WrappingHashSet α} :
      Reachable s → Reachable (Iter.runN s.iter m).2.whs

/-- States reachable without ever calling `remove`. -/
inductive ReachableNR : WrappingHashSet α → Prop where
  | protected new : ReachableNR WrappingHashSet.new
  | ins (a : α) {s : WrappingHashSet α} :
      ReachableNR s → ReachableNR (WrappingHashSet.insert s a).2
  | run (m : Nat) {s : WrappingHashSet α} :
      ReachableNR s → ReachableNR (Iter.runN s.iter m).2.whs

/-- Operations available when `remove` is never called: an insertion or a
traversal session of `m` produce-next calls. -/
inductive NROp (α : Type) where
  | ins (a : α)
  | run (m : Nat)

/-- Apply one remove-free operation. -/
def NROp.apply (s : WrappingHashSet α) : NROp α → WrappingHashSet α
  | NROp.ins a => (WrappingHashSet.insert s a).2
  | NROp.run m => (Iter.runN s.iter m).2.whs

/-- Apply a sequence of remove-free operations. -/
def applyOps (s : WrappingHashSet α) (ops : List (NROp α)) : WrappingHashSet α :=
  ops.foldl NROp.apply s

/-- The values of the successful insertions in a remove-free operation
sequence, in the order they were inserted. -/
def okInserts (s : WrappingHashSet α) : List (NROp α) → List α
  | [] => []
  | NROp.ins a :: rest =>
      if (WrappingHashSet.insert s a).1 then
        a :: okInserts (WrappingHashSet.insert s a).2 rest
      else okInserts s rest
  | NROp.run m :: rest => okInserts (Iter.runN s.iter m).2.whs rest

/-- A set freshly built by a sequence of insertions only. -/
def buildOf (vals : List α) : WrappingHashSet α :=
  applyOps WrappingHashSet.new (vals.map NROp.ins)

/-- Concrete state used to exercise the cursor bound: insert 0 and 1,
consume a full two-element pass, then remove 0.  The cursor stays at 2
while only one key remains. -/
def sCursor : WrappingHashSet Nat :=
  (WrappingHashSet.remove
    (Iter.runN
      (WrappingHashSet.iter
        (WrappingHashSet.insert (WrappingHashSet.insert WrappingHashSet.new 0).2 1).2)
      2).2.whs 0).2

/-- Concrete empty-set state with a nonzero cursor: insert 0, consume it,
then remove it.  The set is empty but the cursor stays at 1. -/
def sEmptyPos : WrappingHashSet Nat :=
  (WrappingHashSet.remove
    (Iter.runN (WrappingHashSet.iter (WrappingHashSet.insert WrappingHashSet.new 0).2)
      1).2.whs 0).2

/-- Concrete two-element state used by the witnesses. -/
def wTwo : WrappingHashSet Nat :=
  (WrappingHashSet.insert (WrappingHashSet.insert WrappingHashSet.new 10).2 20).2

/-- Concrete three-element state with the cursor advanced by one. -/
def wThree : WrappingHashSet Nat :=
  (Iter.runN
    (WrappingHashSet.iter
      (WrappingHashSet.insert
        (WrappingHashSet.insert
          (WrappingHashSet.insert WrappingHashSet.new 3).2 4).2 5).2)
    1).2.whs

/-! ### Basic facts about `rot` -/

theorem rot_zero (l : List α) : rot l 0 = l := by
  simp [rot]

theorem rot_full (l : List α) : rot l l.length = l := by
  simp [rot]

theorem rot_perm (l : List α) (p : Nat) : (rot l p).Perm l := by
  rw [rot]
  have h : (l.drop p ++ l.take p).Perm (l.take p ++ l.drop p) :=
    List.perm_append_comm
  rw [List.take_append_drop] at h
  exact h

theorem rot_length (l : List α) (p : Nat) : (rot l p).length = l.length :=
  (rot_perm l p).length_eq

theorem rot_nodup (l : List α) (p : Nat) (h : l.Nodup) : (rot l p).Nodup :=
  ((rot_perm l p).nodup_iff).mpr h

theorem rot_cons (l : List α) (p : Nat) (hp : p < l.length) :
    rot l p = l.get ⟨p, hp⟩ :: (l.drop (p + 1) ++ l.take p) := by
  rw [rot, List.drop_eq_get_cons hp, List.cons_append]

theorem rot_succ (l : List α) (p : Nat) (hp : p < l.length) :
    rot l (p + 1) = (l.drop (p + 1) ++ l.take p) ++ [l.get ⟨p, hp⟩] := by
  rw [rot, ← List.take_concat_get l p hp, List.concat_eq_append, List.append_assoc]
  rfl

theorem rot_take_succ (l : List α) (p m : Nat) (hp : p < l.length)
    (hm : m + 1 ≤ l.length) :
    (rot l p).take (m + 1) = l.get ⟨p, hp⟩ :: (rot l (p + 1)).take m := by
  have h1 : (l.drop (p + 1) ++ l.take p).length = l.length - 1 := by
    rw [List.length_append, List.length_drop, List.length_take]
    omega
  have h2 : List.take m (l.drop (p + 1) ++ l.take p ++ [l.get ⟨p, hp⟩])
      = List.take m (l.drop (p + 1) ++ l.take p) := by
    rw [List.take_append_of_le_length (by rw [h1]; omega)]
  rw [rot_cons l p hp, rot_succ l p hp, List.take_succ_cons, h2]

theorem rot_add_le (l : List α) (p q : Nat) (h : p + q ≤ l.length) :
    rot (rot l p) q = rot l (p + q) := by
  rw [rot, rot, rot, List.drop_append_of_le_length (by rw [List.length_drop]; omega),
    List.take_append_of_le_length (by rw [List.length_drop]; omega),
    List.drop_drop, List.take_add]
  rw [List.append_assoc]

theorem rot_add_ge (l : List α) (p q : Nat) (hp : p ≤ l.length)
    (hq : q ≤ l.length) (h : l.length ≤ p + q) :
    rot (rot l p) q = rot l (p + q - l.length) := by
  have hd : (l.drop p).length = l.length - p := List.length_drop p l
  have ht : (l.take p).length = p := by rw [List.length_take]; omega
  have hr : p + q - l.length ≤ p := by omega
  have hqq : q - (l.length - p) = p + q - l.length := by omega
  have e1 : List.drop q (l.drop p ++ l.take p)
      = List.drop (p + q - l.length) (l.take p) := by
    rw [List.drop_append_eq_append_drop, List.drop_eq_nil_of_le (by rw [hd]; omega),
      List.nil_append, hd, hqq]
  have e2 : List.take q (l.drop p ++ l.take p)
      = l.drop p ++ List.take (p + q - l.length) (l.take p) := by
    rw [List.take_append_eq_append_take, List.take_of_length_le (by rw [hd]; omega),
      hd, hqq]
  have e3 : List.take (p + q - l.length) (l.take p)
      = List.take (p + q - l.length) l := by
    rw [List.take_take, Nat.min_eq_left hr]
  have e4 : List.drop (p + q - l.length) (l.take p) ++ l.drop p
      = List.drop (p + q - l.length) l := by
    have h5 : (l.take p ++ l.drop p).drop (p + q - l.length)
        = (l.take p).drop (p + q - l.length)
          ++ (l.drop p).drop (p + q - l.length - (l.take p).length) :=
      List.drop_append_eq_append_drop
    rw [List.take_append_drop, ht, Nat.sub_eq_zero_of_le hr, List.drop_zero] at h5
    exact h5.symm
  rw [rot, rot, rot, e1, e2, e3, ← List.append_assoc, e4]

/-! ### Facts about `Iter.next` and `Iter.runN` -/

theorem next_hashset (it : Iter α) : it.next.2.whs.hashset = it.whs.hashset := by
  rw [Iter.next]
  split
  · rfl
  · split <;> rfl

theorem next_keys (it : Iter α) : it.next.2.whs.keys = it.whs.keys := by
  rw [Iter.next]
  split
  · rfl
  · split <;> rfl

theorem runN_hashset (m : Nat) : ∀ it : Iter α,
    (it.runN m).2.whs.hashset = it.whs.hashset := by
  induction m with
  | zero => intro it; rfl
  | succ m ih =>
      intro it
      rw [Iter.runN]
      exact (ih it.next.2).trans (next_hashset it)

theorem runN_keys (m : Nat) : ∀ it : Iter α,
    (it.runN m).2.whs.keys = it.whs.keys := by
  induction m with
  | zero => intro it; rfl
  | succ m ih =>
      intro it
      rw [Iter.runN]
      exact (ih it.next.2).trans (next_keys it)

theorem runN_add (it : Iter α) (a b : Nat) :
    it.runN (a + b) = ((it.runN a).1 ++ ((it.runN a).2.runN b).1,
      ((it.runN a).2.runN b).2) := by
  induction a generalizing it with
  | zero => simp [Iter.runN]
  | succ a ih =>
      have h : a + 1 + b = (a + b) + 1 := by omega
      rw [h, Iter.runN, Iter.runN, ih it.next.2, List.cons_append]

theorem startIdx_le (s : WrappingHashSet α)
    (hlen : s.hashset.length = s.keys.length) : startIdx s ≤ s.keys.length := by
  rw [startIdx]
  split
  · omega
  · omega

theorem next_yield (s : WrappingHashSet α) (c : Nat)
    (hlen : s.hashset.length = s.keys.length)
    (hp : s.pos < s.keys.length) (hc : c + 1 ≤ s.keys.length) :
    Iter.next ⟨s, c⟩ =
      (Step.item (s.keys.get ⟨s.pos, hp⟩), ⟨⟨s.hashset, s.keys, s.pos + 1⟩, c + 1⟩) := by
  have h1 : ¬ s.hashset.length ≤ s.pos := by omega
  have h2 : ¬ s.hashset.length < c + 1 := by omega
  have h3 : startIdx s = s.pos := by rw [startIdx, if_neg h1]
  rw [Iter.next]
  simp only [if_neg h2, h3]
  rw [List.get?_eq_get hp]

theorem next_done (s : WrappingHashSet α) (c : Nat)
    (hc : s.hashset.length < c + 1) :
    Iter.next ⟨s, c⟩ = (Step.done, ⟨⟨s.hashset, s.keys, startIdx s⟩, 0⟩) := by
  rw [Iter.next, if_pos hc]

theorem next_congr_pos (s : WrappingHashSet α) (c : Nat)
    (h : s.hashset.length ≤ s.pos) :
    Iter.next ⟨s, c⟩ = Iter.next ⟨⟨s.hashset, s.keys, 0⟩, c⟩ := by
  have h1 : startIdx s = 0 := by rw [startIdx, if_pos h]
  have h2 : startIdx (⟨s.hashset, s.keys, 0⟩ : WrappingHashSet α) = 0 := by
    rw [startIdx]
    split <;> rfl
  rw [Iter.next, Iter.next]
  simp only [h1, h2]

theorem runN_clamp (s : WrappingHashSet α) (c m : Nat)
    (h : s.hashset.length ≤ s.pos) (hm : 1 ≤ m) :
    Iter.runN ⟨s, c⟩ m = Iter.runN ⟨⟨s.hashset, s.keys, 0⟩, c⟩ m := by
  obtain ⟨m', rfl⟩ : ∃ m', m = m' + 1 := ⟨m - 1, by omega⟩
  rw [Iter.runN, Iter.runN, next_congr_pos s c h]

theorem runN_empty (m : Nat) : ∀ (s : WrappingHashSet α) (c : Nat),
    s.hashset.length = 0 → 1 ≤ m →
    Iter.runN ⟨s, c⟩ m =
      (List.replicate m Step.done, ⟨⟨s.hashset, s.keys, 0⟩, 0⟩) := by
  induction m with
  | zero => intro s c h hm; omega
  | succ m ih =>
      intro s c h _
      have hnext : Iter.next ⟨s, c⟩ = (Step.done, ⟨⟨s.hashset, s.keys, 0⟩, 0⟩) := by
        have h0 : startIdx s = 0 := by rw [startIdx, if_pos (by omega)]
        rw [next_done s c (by omega), h0]
      rcases Nat.eq_zero_or_pos m with hm0 | hm1
      · subst hm0
        simp only [Iter.runN, hnext]
        rfl
      · simp only [Iter.runN, hnext]
        rw [ih (⟨s.hashset, s.keys, 0⟩ : WrappingHashSet α) 0 h hm1]
        rfl

/-- Core session lemma: starting from an in-range cursor `pos < |keys|` and a
session count `c`, running `m` further produce-next calls (staying within the
session bound `c + m ≤ |keys|`) yields the next `m` elements of the rotation
of `keys` at `pos`, advances the cursor by `m` (wrapping past the end at most
once), and increases the count by `m`. -/
theorem runN_session (m : Nat) : ∀ (s : WrappingHashSet α) (c : Nat),
    s.hashset.length = s.keys.length →
    s.pos < s.keys.length →
    c + m ≤ s.keys.length →
    Iter.runN ⟨s, c⟩ m =
      (((rot s.keys s.pos).take m).map Step.item,
       ⟨⟨s.hashset, s.keys,
          if s.pos + m ≤ s.keys.length then s.pos + m
          else s.pos + m - s.keys.length⟩,
        c + m⟩) := by
  induction m with
  | zero =>
      intro s c hlen hp hc
      simp only [Iter.runN, List.take_zero, List.map_nil, Nat.add_zero]
      rw [if_pos (le_of_lt hp)]
  | succ m ih =>
      intro s c hlen hp hc
      have hc1 : c + 1 ≤ s.keys.length := by omega
      have hm1 : m + 1 ≤ s.keys.length := by omega
      have hnext := next_yield s c hlen hp hc1
      simp only [Iter.runN, hnext]
      rcases Nat.lt_or_ge (s.pos + 1) s.keys.length with hlt | hge
      · have ihh : Iter.runN ⟨⟨s.hashset, s.keys, s.pos + 1⟩, c + 1⟩ m =
            (((rot s.keys (s.pos + 1)).take m).map Step.item,
             ⟨⟨s.hashset, s.keys,
                if s.pos + 1 + m ≤ s.keys.length then s.pos + 1 + m
                else s.pos + 1 + m - s.keys.length⟩,
              c + 1 + m⟩) :=
          ih ⟨s.hashset, s.keys, s.pos + 1⟩ (c + 1) hlen hlt
            (show c + 1 + m ≤ s.keys.length by omega)
        rw [ihh, rot_take_succ s.keys s.pos m hp hm1, List.map_cons]
        have e1 : s.pos + (m + 1) = s.pos + 1 + m := by omega
        have e2 : c + (m + 1) = c + 1 + m := by omega
        rw [e1, e2]
      · have heq : s.pos + 1 = s.keys.length := by omega
        rcases Nat.eq_zero_or_pos m with hm0 | hmpos
        · subst hm0
          simp only [Iter.runN]
          have ht1 : (rot s.keys s.pos).take (0 + 1) = [s.keys.get ⟨s.pos, hp⟩] := by
            rw [rot_cons s.keys s.pos hp]
            rfl
          rw [ht1, if_pos (show s.pos + (0 + 1) ≤ s.keys.length by omega)]
          rfl
        · have hclamp : Iter.runN ⟨⟨s.hashset, s.keys, s.pos + 1⟩, c + 1⟩ m
              = Iter.runN ⟨⟨s.hashset, s.keys, 0⟩, c + 1⟩ m :=
            runN_clamp ⟨s.hashset, s.keys, s.pos + 1⟩ (c + 1) m
              (show s.hashset.length ≤ s.pos + 1 by omega) hmpos
          have ihh : Iter.runN ⟨⟨s.hashset, s.keys, 0⟩, c + 1⟩ m =
              (((rot s.keys 0).take m).map Step.item,
               ⟨⟨s.hashset, s.keys,
                  if 0 + m ≤ s.keys.length then 0 + m
                  else 0 + m - s.keys.length⟩,
                c + 1 + m⟩) :=
            ih ⟨s.hashset, s.keys, 0⟩ (c + 1) hlen
              (show 0 < s.keys.length by omega)
              (show c + 1 + m ≤ s.keys.length by omega)
          have hrot : rot s.keys (s.pos + 1) = s.keys := by
            rw [heq, rot_full]
          rw [hclamp, ihh, rot_zero, rot_take_succ s.keys s.pos m hp hm1, hrot,
            List.map_cons]
          rw [if_pos (show 0 + m ≤ s.keys.length by omega),
            if_neg (show ¬ s.pos + (m + 1) ≤ s.keys.length by omega)]
          have e3 : 0 + m = m := by omega
          have e4 : s.pos + (m + 1) - s.keys.length = m := by omega
          have e5 : c + 1 + m = c + (m + 1) := by omega
          rw [e3, e4, e5]

/-- A fresh session of `k ≥ 1` produce-next calls yields the first `k`
elements of the rotation of `keys` at the clamped cursor `startIdx s`. -/
theorem runN_session_start (s : WrappingHashSet α) (k : Nat)
    (hlen : s.hashset.length = s.keys.length) (hk1 : 1 ≤ k)
    (hk : k ≤ s.keys.length) :
    Iter.runN s.iter k =
      (((rot s.keys (startIdx s)).take k).map Step.item,
       ⟨⟨s.hashset, s.keys,
          if startIdx s + k ≤ s.keys.length then startIdx s + k
          else startIdx s + k - s.keys.length⟩, k⟩) := by
  have e : 0 + k = k := by omega
  rcases Nat.lt_or_ge s.pos s.hashset.length with hlt | hge
  · have hidx : startIdx s = s.pos := by rw [startIdx, if_neg (by omega)]
    have h := runN_session k s 0 hlen (by omega) (by omega)
    rw [WrappingHashSet.iter, h, hidx, e]
  · have hidx : startIdx s = 0 := by rw [startIdx, if_pos hge]
    have hcl := runN_clamp s 0 k hge hk1
    have h : Iter.runN ⟨⟨s.hashset, s.keys, 0⟩, 0⟩ k =
        (((rot s.keys 0).take k).map Step.item,
         ⟨⟨s.hashset, s.keys,
            if 0 + k ≤ s.keys.length then 0 + k
            else 0 + k - s.keys.length⟩, 0 + k⟩) :=
      runN_session k ⟨s.hashset, s.keys, 0⟩ 0 hlen
        (show 0 < s.keys.length by omega) (show 0 + k ≤ s.keys.length by omega)
    rw [WrappingHashSet.iter, hcl, h, hidx, e]

/-- A single further produce-next call on a session whose count has reached
the set size signals exhaustion, clamps the cursor, and resets the count. -/
theorem runN_one_done (hs keys : List α) (q c : Nat)
    (hlen : hs.length = keys.length) (hc : hs.length < c + 1) :
    Iter.runN ⟨⟨hs, keys, q⟩, c⟩ 1
      = ([Step.done], ⟨⟨hs, keys, if hs.length ≤ q then 0 else q⟩, 0⟩) := by
  simp only [Iter.runN]
  rw [next_done ⟨hs, keys, q⟩ c hc]
  rfl

/-- Full-session lemma: driving a fresh session for `n + 1` calls on a
nonempty set yields the whole rotation of `keys` at the clamped cursor,
then exhaustion, and leaves the cursor back at the clamped start. -/
theorem runN_full (s : WrappingHashSet α)
    (hlen : s.hashset.length = s.keys.length) (hn : 0 < s.keys.length) :
    Iter.runN s.iter (s.keys.length + 1) =
      ((rot s.keys (startIdx s)).map Step.item ++ [Step.done],
       ⟨⟨s.hashset, s.keys, startIdx s⟩, 0⟩) := by
  have hp : startIdx s < s.keys.length := by
    rw [startIdx]
    split <;> omega
  have hstart := runN_session_start s s.keys.length hlen (by omega)
    (Nat.le_refl s.keys.length)
  have htake : (rot s.keys (startIdx s)).take s.keys.length
      = rot s.keys (startIdx s) :=
    List.take_of_length_le (le_of_eq (rot_length s.keys (startIdx s)))
  rw [htake] at hstart
  have hadd := runN_add s.iter s.keys.length 1
  simp only [hstart] at hadd
  have hone := runN_one_done s.hashset s.keys
    (if startIdx s + s.keys.length ≤ s.keys.length then startIdx s + s.keys.length
      else startIdx s + s.keys.length - s.keys.length)
    s.keys.length hlen (by omega)
  have hqs : (if s.hashset.length ≤ (if startIdx s + s.keys.length ≤ s.keys.length
        then startIdx s + s.keys.length
        else startIdx s + s.keys.length - s.keys.length) then 0
      else (if startIdx s + s.keys.length ≤ s.keys.length
        then startIdx s + s.keys.length
        else startIdx s + s.keys.length - s.keys.length)) = startIdx s := by
    split_ifs <;> omega
  rw [hqs] at hone
  rw [hadd, hone]

/-! ### The structural invariant and reachability -/

theorem inv_new : Inv (WrappingHashSet.new : WrappingHashSet α) := by
  refine ⟨List.nodup_nil, List.nodup_nil, ?_⟩
  intro a
  simp [WrappingHashSet.new]

theorem inv_insert (s : WrappingHashSet α) (h : Inv s) (a : α) :
    Inv (WrappingHashSet.insert s a).2 := by
  obtain ⟨h1, h2, h3⟩ := h
  by_cases hm : a ∈ s.hashset
  · rw [WrappingHashSet.insert, if_pos hm]
    exact ⟨h1, h2, h3⟩
  · have hk : a ∉ s.keys := fun hk => hm ((h3 a).mpr hk)
    rw [WrappingHashSet.insert, if_neg hm]
    refine ⟨?_, ?_, ?_⟩
    · exact h1.append (List.nodup_singleton a) (List.disjoint_singleton.mpr hm)
    · exact h2.append (List.nodup_singleton a) (List.disjoint_singleton.mpr hk)
    · intro x
      show x ∈ s.hashset ++ [a] ↔ x ∈ s.keys ++ [a]
      rw [List.mem_append, List.mem_append, h3 x]

theorem inv_remove (s : WrappingHashSet α) (h : Inv s) (a : α) :
    Inv (WrappingHashSet.remove s a).2 := by
  obtain ⟨h1, h2, h3⟩ := h
  by_cases hm : a ∈ s.hashset
  · rw [WrappingHashSet.remove, if_pos hm]
    exact ⟨h1.erase a, h1.erase a, fun x => Iff.rfl⟩
  · rw [WrappingHashSet.remove, if_neg hm]
    exact ⟨h1, h2, h3⟩

theorem inv_len (s : WrappingHashSet α) (h : Inv s) :
    s.hashset.length = s.keys.length :=
  ((List.perm_ext_iff_of_nodup h.1 h.2.1).mpr (fun a => h.2.2 a)).length_eq

theorem inv_runN (s : WrappingHashSet α) (h : Inv s) (c m : Nat) :
    Inv (Iter.runN ⟨s, c⟩ m).2.whs := by
  have h1 := runN_hashset m (⟨s, c⟩ : Iter α)
  have h2 := runN_keys m (⟨s, c⟩ : Iter α)
  rw [Inv, h1, h2]
  exact h

theorem reachable_inv (s : WrappingHashSet α) (h : Reachable s) : Inv s := by
  induction h with
  | new => exact inv_new
  | ins a h ih => exact inv_insert _ ih a
  | rem a h ih => exact inv_remove _ ih a
  | run m h ih => exact inv_runN _ ih 0 m

theorem reachableNR_reachable (s : WrappingHashSet α) (h : ReachableNR s) :
    Reachable s := by
  induction h with
  | new => exact Reachable.new
  | ins a h ih => exact Reachable.ins a ih
  | run m h ih => exact Reachable.run m ih

theorem next_pos_le (it : Iter α)
    (hlen : it.whs.hashset.length = it.whs.keys.length) :
    it.next.2.whs.pos ≤ it.whs.keys.length := by
  have hsi : startIdx it.whs ≤ it.whs.keys.length := startIdx_le it.whs hlen
  by_cases hc : it.whs.hashset.length < it.count + 1
  · simp only [Iter.next, if_pos hc]
    exact hsi
  · rcases hget : it.whs.keys.get? (startIdx it.whs) with _ | a
    · simp only [Iter.next, if_neg hc, hget]
      exact hsi
    · simp only [Iter.next, if_neg hc, hget]
      obtain ⟨hlt, _⟩ := List.get?_eq_some.mp hget
      omega

theorem runN_pos_le (m : Nat) : ∀ it : Iter α,
    it.whs.hashset.length = it.whs.keys.length →
    (it.runN m).2.whs.pos ≤ (it.runN m).2.whs.keys.length ∨ (it.runN m).2 = it := by
  induction m with
  | zero =>
      intro it hlen
      right
      rfl
  | succ m ih =>
      intro it hlen
      have hlen' : it.next.2.whs.hashset.length = it.next.2.whs.keys.length := by
        rw [next_hashset, next_keys]
        exact hlen
      rcases ih it.next.2 hlen' with h | h
      · left
        simp only [Iter.runN]
        exact h
      · left
        simp only [Iter.runN, h]
        rw [next_keys]
        exact next_pos_le it hlen

theorem reachableNR_pos (s : WrappingHashSet α) (h : ReachableNR s) :
    s.pos ≤ s.keys.length := by
  induction h with
  | new => exact Nat.le_refl 0
  | @ins a s h ih =>
      rw [WrappingHashSet.insert]
      by_cases hm : a ∈ s.hashset
      · rw [if_pos hm]
        exact ih
      · rw [if_neg hm]
        show s.pos ≤ (s.keys ++ [a]).length
        rw [List.length_append]
        exact Nat.le_trans ih (by omega)
  | @run m s h ih =>
      have hlen : s.hashset.length = s.keys.length :=
        inv_len s (reachable_inv s (reachableNR_reachable s h))
      rcases runN_pos_le m s.iter hlen with h2 | h2
      · exact h2
      · rw [h2]
        exact ih

theorem next_ne_oob (it : Iter α)
    (hlen : it.whs.hashset.length = it.whs.keys.length) :
    it.next.1 ≠ Step.oob := by
  by_cases hc : it.whs.hashset.length < it.count + 1
  · simp only [Iter.next, if_pos hc]
    intro h
    exact Step.noConfusion h
  · rcases hget : it.whs.keys.get? (startIdx it.whs) with _ | a
    · exfalso
      have hnone := List.get?_eq_none.mp hget
      rw [startIdx] at hnone
      split at hnone <;> omega
    · simp only [Iter.next, if_neg hc, hget]
      intro h
      exact Step.noConfusion h

theorem runN_no_oob (m : Nat) : ∀ it : Iter α,
    it.whs.hashset.length = it.whs.keys.length →
    Step.oob ∉ (it.runN m).1 := by
  induction m with
  | zero =>
      intro it hlen
      simp [Iter.runN]
  | succ m ih =>
      intro it hlen
      simp only [Iter.runN, List.mem_cons]
      rintro (h | h)
      · exact next_ne_oob it hlen h.symm
      · have hlen' : it.next.2.whs.hashset.length = it.next.2.whs.keys.length := by
          rw [next_hashset, next_keys]
          exact hlen
        exact ih it.next.2 hlen' h

/-! ### Facts about `yields` -/

theorem yields_append (l₁ l₂ : List (Step α)) :
    yields (l₁ ++ l₂) = yields l₁ ++ yields l₂ := by
  induction l₁ with
  | nil => rfl
  | cons x rest ih =>
      cases x <;> simp [yields, ih]

theorem yields_map_item (l : List α) : yields (l.map Step.item) = l := by
  induction l with
  | nil => rfl
  | cons x rest ih =>
      simp [yields, ih]

theorem yields_replicate_done (m : Nat) :
    yields (List.replicate m (Step.done : Step α)) = [] := by
  induction m with
  | zero => rfl
  | succ m ih =>
      rw [List.replicate_succ, yields, ih]

theorem startIdx_lt (s : WrappingHashSet α)
    (hlen : s.hashset.length = s.keys.length) (hn : 0 < s.keys.length) :
    startIdx s < s.keys.length := by
  rw [startIdx]
  split <;> omega

theorem startIdx_mk (hs keys : List α) (q : Nat) :
    startIdx ⟨hs, keys, q⟩ = if hs.length ≤ q then 0 else q := rfl

/-! ### Claim theorems -/

/-- C1: for every reachable `WrappingHashSet` holding `n` elements, a single
fresh traversal session driven to exhaustion (`n + 1` produce-next calls)
yields exactly the rotation of `keys` at the clamped cursor — `n` elements,
no element twice — and then signals exhaustion (`Step.done`). -/
theorem wrap_law (s : WrappingHashSet α) (h : Reachable s) :
    (Iter.runN s.iter (s.hashset.length + 1)).1
      = (rot s.keys (startIdx s)).map Step.item ++ [Step.done]
    ∧ (yields (Iter.runN s.iter (s.hashset.length + 1)).1).length = s.hashset.length
    ∧ (yields (Iter.runN s.iter (s.hashset.length + 1)).1).Nodup := by
  have hinv := reachable_inv s h
  have hlen := inv_len s hinv
  rcases Nat.eq_zero_or_pos s.keys.length with h0 | hpos
  · have hk : s.keys = [] := List.length_eq_zero.mp h0
    have hhs0 : s.hashset.length = 0 := by omega
    have e : s.hashset.length + 1 = 1 := by omega
    have hrun := runN_empty 1 s 0 hhs0 (Nat.le_refl 1)
    rw [WrappingHashSet.iter, e]
    have hout : (Iter.runN ⟨s, 0⟩ 1).1 = List.replicate 1 Step.done := by
      rw [hrun]
    have hrot : rot s.keys (startIdx s) = [] := by
      rw [hk, rot]
      simp
    rw [hout, hrot, yields_replicate_done]
    refine ⟨rfl, ?_, List.nodup_nil⟩
    rw [List.length_nil, hhs0]
  · have hfull := runN_full s hlen hpos
    have hout : (Iter.runN s.iter (s.keys.length + 1)).1
        = (rot s.keys (startIdx s)).map Step.item ++ [Step.done] := by
      rw [hfull]
    rw [hlen, hout, yields_append, yields_map_item,
      show yields [Step.done] = ([] : List α) from rfl, List.append_nil]
    exact ⟨rfl, rot_length s.keys (startIdx s),
      rot_nodup s.keys (startIdx s) hinv.2.1⟩

/-- Helper for the resume law: after a fresh session of `k` calls, the
rotation of `keys` at the second session's clamped cursor is exactly the
first rotation shifted by `k`: the `n - k` unvisited elements first, then
the `k` already-visited ones. -/
theorem rot_shift (s : WrappingHashSet α) (k : Nat)
    (hlen : s.hashset.length = s.keys.length) (hk : k < s.keys.length) :
    rot s.keys (startIdx ⟨s.hashset, s.keys,
        if startIdx s + k ≤ s.keys.length then startIdx s + k
        else startIdx s + k - s.keys.length⟩)
      = (rot s.keys (startIdx s)).drop k ++ (rot s.keys (startIdx s)).take k := by
  have hn : 0 < s.keys.length := by omega
  have hp0 : startIdx s < s.keys.length := startIdx_lt s hlen hn
  have hback : (rot s.keys (startIdx s)).drop k ++ (rot s.keys (startIdx s)).take k
      = rot (rot s.keys (startIdx s)) k := rfl
  rw [hback, startIdx_mk]
  rcases Nat.lt_or_ge (startIdx s + k) s.keys.length with hlt | hge
  · rw [if_pos (show startIdx s + k ≤ s.keys.length by omega),
      if_neg (show ¬ s.hashset.length ≤ startIdx s + k by omega),
      rot_add_le s.keys (startIdx s) k (by omega)]
  · rcases Nat.eq_or_lt_of_le hge with heq | hgt
    · rw [if_pos (show startIdx s + k ≤ s.keys.length by omega),
        if_pos (show s.hashset.length ≤ startIdx s + k by omega),
        rot_add_le s.keys (startIdx s) k (by omega), ← heq, rot_full, rot_zero]
    · rw [if_neg (show ¬ startIdx s + k ≤ s.keys.length by omega),
        if_neg (show ¬ s.hashset.length ≤ startIdx s + k - s.keys.length by omega),
        rot_add_ge s.keys (startIdx s) k (by omega) (by omega) (by omega)]

/-- C2: for every reachable set of size `n` and every `k < n`: a fresh
session that yields exactly `k` elements and is then abandoned is followed,
on the next fresh session, by the remaining `n - k` elements first (in
cursor order) before wrapping to repeat the `k` already-yielded ones; and
across the two sessions the first `n` yielded elements are exactly the `n`
elements of the set, each exactly once. -/
theorem resume_law (s : WrappingHashSet α) (h : Reachable s) (k : Nat)
    (hk : k < s.keys.length) :
    (Iter.runN s.iter k).1 = ((rot s.keys (startIdx s)).take k).map Step.item
  ∧ (Iter.runN ((Iter.runN s.iter k).2.whs.iter) (s.keys.length + 1)).1
      = ((rot s.keys (startIdx s)).drop k ++ (rot s.keys (startIdx s)).take k).map
          Step.item ++ [Step.done]
  ∧ (yields (Iter.runN s.iter k).1
      ++ (yields (Iter.runN ((Iter.runN s.iter k).2.whs.iter)
            (s.keys.length + 1)).1).take (s.keys.length - k)).Nodup
  ∧ (yields (Iter.runN s.iter k).1
      ++ (yields (Iter.runN ((Iter.runN s.iter k).2.whs.iter)
            (s.keys.length + 1)).1).take (s.keys.length - k)).Perm s.keys := by
  have hinv := reachable_inv s h
  have hlen := inv_len s hinv
  have hn : 0 < s.keys.length := by omega
  have hdroplen : ((rot s.keys (startIdx s)).drop k).length = s.keys.length - k := by
    rw [List.length_drop, rot_length]
  have htk : ((rot s.keys (startIdx s)).drop k
        ++ (rot s.keys (startIdx s)).take k).take (s.keys.length - k)
      = (rot s.keys (startIdx s)).drop k := by
    rw [List.take_append_of_le_length (by rw [hdroplen])]
    exact List.take_of_length_le (le_of_eq hdroplen)
  have hfin : (rot s.keys (startIdx s)).take k ++ (rot s.keys (startIdx s)).drop k
      = rot s.keys (startIdx s) := List.take_append_drop k (rot s.keys (startIdx s))
  rcases Nat.eq_zero_or_pos k with hk0 | hk1
  · subst hk0
    have hzero : Iter.runN s.iter 0 = ([], s.iter) := rfl
    have hfull := runN_full s hlen hn
    have hout2 : (Iter.runN ((Iter.runN s.iter 0).2.whs.iter) (s.keys.length + 1)).1
        = (rot s.keys (startIdx s)).map Step.item ++ [Step.done] := by
      rw [hzero]
      rw [show ((([] : List (Step α)), s.iter).2.whs.iter) = s.iter from rfl]
      rw [hfull]
    have hd0 : (rot s.keys (startIdx s)).drop 0 ++ (rot s.keys (startIdx s)).take 0
        = rot s.keys (startIdx s) := by
      rw [List.drop_zero, List.take_zero, List.append_nil]
    rw [hout2, hzero]
    refine ⟨rfl, by rw [hd0], ?_, ?_⟩
    · rw [show yields ([] : List (Step α)) = [] from rfl, List.nil_append,
        yields_append, yields_map_item,
        show yields [Step.done] = ([] : List α) from rfl, List.append_nil]
      have htk0 : (rot s.keys (startIdx s)).take (s.keys.length - 0)
          = rot s.keys (startIdx s) := by
        rw [Nat.sub_zero]
        exact List.take_of_length_le (le_of_eq (rot_length s.keys (startIdx s)))
      rw [htk0]
      exact rot_nodup s.keys (startIdx s) hinv.2.1
    · rw [show yields ([] : List (Step α)) = [] from rfl, List.nil_append,
        yields_append, yields_map_item,
        show yields [Step.done] = ([] : List α) from rfl, List.append_nil]
      have htk0 : (rot s.keys (startIdx s)).take (s.keys.length - 0)
          = rot s.keys (startIdx s) := by
        rw [Nat.sub_zero]
        exact List.take_of_length_le (le_of_eq (rot_length s.keys (startIdx s)))
      rw [htk0]
      exact rot_perm s.keys (startIdx s)
  · have hstart := runN_session_start s k hlen hk1 (le_of_lt hk)
    have hout1 : (Iter.runN s.iter k).1
        = ((rot s.keys (startIdx s)).take k).map Step.item := by
      rw [hstart]
    have hstate : (Iter.runN s.iter k).2.whs
        = ⟨s.hashset, s.keys,
            if startIdx s + k ≤ s.keys.length then startIdx s + k
            else startIdx s + k - s.keys.length⟩ := by
      rw [hstart]
    have hfull : Iter.runN (WrappingHashSet.iter ⟨s.hashset, s.keys,
          if startIdx s + k ≤ s.keys.length then startIdx s + k
          else startIdx s + k - s.keys.length⟩) (s.keys.length + 1) =
        ((rot s.keys (startIdx ⟨s.hashset, s.keys,
            if startIdx s + k ≤ s.keys.length then startIdx s + k
            else startIdx s + k - s.keys.length⟩)).map Step.item ++ [Step.done],
         ⟨⟨s.hashset, s.keys, startIdx ⟨s.hashset, s.keys,
            if startIdx s + k ≤ s.keys.length then startIdx s + k
            else startIdx s + k - s.keys.length⟩⟩, 0⟩) :=
      runN_full ⟨s.hashset, s.keys,
        if startIdx s + k ≤ s.keys.length then startIdx s + k
        else startIdx s + k - s.keys.length⟩ hlen hn
    have hshift := rot_shift s k hlen hk
    rw [hshift] at hfull
    have hout2 : (Iter.runN ((Iter.runN s.iter k).2.whs.iter) (s.keys.length + 1)).1
        = ((rot s.keys (startIdx s)).drop k ++ (rot s.keys (startIdx s)).take k).map
            Step.item ++ [Step.done] := by
      rw [hstate, hfull]
    rw [hout1, hout2, yields_map_item, yields_append, yields_map_item,
      show yields [Step.done] = ([] : List α) from rfl, List.append_nil, htk, hfin]
    exact ⟨rfl, rfl, rot_nodup s.keys (startIdx s) hinv.2.1,
      rot_perm s.keys (startIdx s)⟩

/-- C4: no traversal on a reachable state ever performs an out-of-bounds
read of `keys` (the Rust panic, modelled as `Step.oob`): every produce-next
call either yields an element or signals exhaustion. -/
theorem no_out_of_bounds (s : WrappingHashSet α) (h : Reachable s) (m : Nat) :
    Step.oob ∉ (Iter.runN s.iter m).1 :=
  runN_no_oob m s.iter (inv_len s (reachable_inv s h))

/-- C5: in every reachable state the ordered snapshot `keys` and the
membership set `hashset` hold exactly the same elements, with no duplicates
in `keys`; and this is preserved by `insert` and by `remove`. -/
theorem members_ordered_agree (s : WrappingHashSet α) (h : Reachable s) (v : α) :
    ((∀ a : α, a ∈ s.keys ↔ a ∈ s.hashset) ∧ s.keys.Nodup)
  ∧ ((∀ a : α, a ∈ (WrappingHashSet.insert s v).2.keys
        ↔ a ∈ (WrappingHashSet.insert s v).2.hashset)
      ∧ (WrappingHashSet.insert s v).2.keys.Nodup)
  ∧ ((∀ a : α, a ∈ (WrappingHashSet.remove s v).2.keys
        ↔ a ∈ (WrappingHashSet.remove s v).2.hashset)
      ∧ (WrappingHashSet.remove s v).2.keys.Nodup) := by
  have hinv := reachable_inv s h
  have hi := inv_insert s hinv v
  have hr := inv_remove s hinv v
  exact ⟨⟨fun a => (hinv.2.2 a).symm, hinv.2.1⟩,
    ⟨fun a => (hi.2.2 a).symm, hi.2.1⟩,
    ⟨fun a => (hr.2.2 a).symm, hr.2.1⟩⟩

/-- C6: `insert v` on a reachable state returns `false` and changes nothing
when `v` is already a member; otherwise it returns `true`, adds `v` to the
membership set, appends `v` to `keys`, leaves the cursor unchanged, a second
insert of `v` then returns `false`, and `v` is yielded exactly once by a
subsequent full traversal. -/
theorem insert_spec (s : WrappingHashSet α) (h : Reachable s) (v : α) :
    (v ∈ s.hashset → WrappingHashSet.insert s v = (false, s))
  ∧ (v ∉ s.hashset →
      (WrappingHashSet.insert s v).1 = true
      ∧ (∀ x : α, x ∈ (WrappingHashSet.insert s v).2.hashset ↔ x ∈ s.hashset ∨ x = v)
      ∧ (WrappingHashSet.insert s v).2.keys = s.keys ++ [v]
      ∧ (WrappingHashSet.insert s v).2.pos = s.pos
      ∧ (WrappingHashSet.insert (WrappingHashSet.insert s v).2 v).1 = false
      ∧ (yields (Iter.runN ((WrappingHashSet.insert s v).2.iter)
            ((WrappingHashSet.insert s v).2.hashset.length + 1)).1).count v = 1) := by
  have hinv := reachable_inv s h
  constructor
  · intro hm
    rw [WrappingHashSet.insert, if_pos hm]
  · intro hm
    have hkv : v ∉ s.keys := fun hx => hm ((hinv.2.2 v).mpr hx)
    have heq : WrappingHashSet.insert s v
        = (true, ⟨s.hashset ++ [v], s.keys ++ [v], s.pos⟩) := by
      rw [WrappingHashSet.insert, if_neg hm]
    rw [heq]
    refine ⟨rfl, ?_, rfl, rfl, ?_, ?_⟩
    · intro x
      show x ∈ s.hashset ++ [v] ↔ x ∈ s.hashset ∨ x = v
      rw [List.mem_append, List.mem_singleton]
    · show (WrappingHashSet.insert ⟨s.hashset ++ [v], s.keys ++ [v], s.pos⟩ v).1 = false
      rw [WrappingHashSet.insert, if_pos (by simp)]
    · have hinv' : Inv (⟨s.hashset ++ [v], s.keys ++ [v], s.pos⟩ : WrappingHashSet α) := by
        have hins := inv_insert s hinv v
        rw [heq] at hins
        exact hins
      have hlen' := inv_len _ hinv'
      have hn' : 0 < (s.keys ++ [v]).length := by simp
      have hfull : Iter.runN
          (WrappingHashSet.iter ⟨s.hashset ++ [v], s.keys ++ [v], s.pos⟩)
          ((s.keys ++ [v]).length + 1) =
          ((rot (s.keys ++ [v])
              (startIdx ⟨s.hashset ++ [v], s.keys ++ [v], s.pos⟩)).map Step.item
            ++ [Step.done],
           ⟨⟨s.hashset ++ [v], s.keys ++ [v],
              startIdx ⟨s.hashset ++ [v], s.keys ++ [v], s.pos⟩⟩, 0⟩) :=
        runN_full ⟨s.hashset ++ [v], s.keys ++ [v], s.pos⟩ hlen' hn'
      show (yields (Iter.runN
          (WrappingHashSet.iter ⟨s.hashset ++ [v], s.keys ++ [v], s.pos⟩)
          ((s.hashset ++ [v]).length + 1)).1).count v = 1
      rw [show ((s.hashset ++ [v]).length : Nat) = (s.keys ++ [v]).length from hlen',
        hfull, yields_append, yields_map_item,
        show yields [Step.done] = ([] : List α) from rfl, List.append_nil]
      rw [(rot_perm (s.keys ++ [v])
          (startIdx ⟨s.hashset ++ [v], s.keys ++ [v], s.pos⟩)).count_eq v,
        List.count_append, List.count_eq_zero.mpr hkv]
      simp

/-- C7: `remove v` on a reachable state returns `true`, removes `v` from the
membership set and rebuilds `keys` from the remaining members when `v` is a
member; returns `false` and changes nothing when `v` is absent; in both
cases the cursor value is left numerically unchanged. -/
theorem remove_spec (s : WrappingHashSet α) (h : Reachable s) (v : α) :
    (v ∈ s.hashset →
      (WrappingHashSet.remove s v).1 = true
      ∧ (∀ x : α, x ∈ (WrappingHashSet.remove s v).2.hashset
          ↔ x ∈ s.hashset ∧ x ≠ v)
      ∧ (∀ x : α, x ∈ (WrappingHashSet.remove s v).2.keys
          ↔ x ∈ (WrappingHashSet.remove s v).2.hashset)
      ∧ (WrappingHashSet.remove s v).2.pos = s.pos)
  ∧ (v ∉ s.hashset → WrappingHashSet.remove s v = (false, s)) := by
  have hinv := reachable_inv s h
  constructor
  · intro hm
    have heq : WrappingHashSet.remove s v
        = (true, ⟨s.hashset.erase v, s.hashset.erase v, s.pos⟩) := by
      rw [WrappingHashSet.remove, if_pos hm]
    rw [heq]
    refine ⟨rfl, ?_, fun x => Iff.rfl, rfl⟩
    intro x
    show x ∈ s.hashset.erase v ↔ x ∈ s.hashset ∧ x ≠ v
    rw [hinv.1.mem_erase_iff]
    exact and_comm
  · intro hm
    rw [WrappingHashSet.remove, if_neg hm]

/-- C8: on a reachable state whose cursor `p` exceeds the set size `m`
(removals shrank the set), the next fresh session does not fail or skip:
its first produce-next clamps the cursor to 0 (advancing it to
`min 1 m` after the call), and driving the session to exhaustion yields all
`m` elements, in snapshot order from index 0, before signalling done. -/
theorem post_removal_clamp (s : WrappingHashSet α) (h : Reachable s)
    (hp : s.keys.length < s.pos) :
    (Iter.runN s.iter (s.keys.length + 1)).1 = s.keys.map Step.item ++ [Step.done]
  ∧ (Iter.next s.iter).2.whs.pos = min 1 s.keys.length := by
  have hinv := reachable_inv s h
  have hlen := inv_len s hinv
  have hclamp : s.hashset.length ≤ s.pos := by omega
  have hidx : startIdx s = 0 := by rw [startIdx, if_pos hclamp]
  rcases Nat.eq_zero_or_pos s.keys.length with h0 | hpos
  · have e : s.keys.length + 1 = 1 := by omega
    have hhs0 : s.hashset.length = 0 := by omega
    have hrun := runN_empty 1 s 0 hhs0 (Nat.le_refl 1)
    have hkeys : s.keys = [] := List.length_eq_zero.mp h0
    constructor
    · rw [WrappingHashSet.iter, e,
        show (Iter.runN ⟨s, 0⟩ 1).1 = List.replicate 1 Step.done from by rw [hrun],
        hkeys]
      rfl
    · rw [WrappingHashSet.iter, next_done s 0 (by omega)]
      show startIdx s = min 1 s.keys.length
      rw [hidx]
      omega
  · constructor
    · have hfull := runN_full s hlen hpos
      rw [show (Iter.runN s.iter (s.keys.length + 1)).1
          = (rot s.keys (startIdx s)).map Step.item ++ [Step.done] from by rw [hfull],
        hidx, rot_zero]
    · have hc : ¬ s.hashset.length < 0 + 1 := by omega
      have hget : s.keys.get? (startIdx s) = some (s.keys.get ⟨0, hpos⟩) := by
        rw [hidx]
        exact List.get?_eq_get hpos
      rw [WrappingHashSet.iter]
      show (Iter.next ⟨s, 0⟩).2.whs.pos = min 1 s.keys.length
      simp only [Iter.next, if_neg hc, hget]
      rw [hidx]
      omega

/-- C3 counterexample: the state reached by `new; insert 0; insert 1;
iterate twice; remove 0` is reachable, yet its cursor (2) strictly exceeds
the length of its ordered snapshot (1) — refuting the claim that
`cursor <= length(ordered)` holds in every reachable state. -/
theorem cursor_bound_counterexample :
    Reachable sCursor ∧ sCursor.keys.length < sCursor.pos := by
  refine ⟨?_, by decide⟩
  show Reachable ((WrappingHashSet.remove
    (Iter.runN (WrappingHashSet.iter
      (WrappingHashSet.insert
        (WrappingHashSet.insert WrappingHashSet.new 0).2 1).2) 2).2.whs 0).2)
  exact Reachable.rem 0 (Reachable.run 2 (Reachable.ins 1 (Reachable.ins 0 Reachable.new)))

/-- C3 (amended): in every state reachable without `remove`, the cursor
satisfies `0 <= cursor <= length(ordered)`; a `remove` may leave the cursor
above `length(ordered)` until the next produce-next clamps it. -/
theorem cursor_bound_no_remove (s : WrappingHashSet α) (h : ReachableNR s) :
    s.pos ≤ s.keys.length :=
  reachableNR_pos s h

/-- C9 counterexample: the state reached by `new; insert 0; iterate once;
remove 0` has zero elements and cursor 1; its first produce-next signals
exhaustion but resets the cursor to 0 — refuting the claim that the cursor
is not modified. -/
theorem empty_cursor_counterexample :
    Reachable sEmptyPos ∧ sEmptyPos.hashset.length = 0 ∧ sEmptyPos.pos = 1
      ∧ (Iter.next sEmptyPos.iter).2.whs.pos ≠ sEmptyPos.pos := by
  refine ⟨?_, by decide, by decide, by decide⟩
  show Reachable ((WrappingHashSet.remove
    (Iter.runN (WrappingHashSet.iter
      (WrappingHashSet.insert WrappingHashSet.new 0).2) 1).2.whs 0).2)
  exact Reachable.rem 0 (Reachable.run 1 (Reachable.ins 0 Reachable.new))

/-- C9 (amended): on every `WrappingHashSet` with zero elements, every
produce-next call signals exhaustion with zero elements yielded, and leaves
the cursor at 0 (resetting it to 0 if it was nonzero). -/
theorem empty_set_exhaustion (s : WrappingHashSet α)
    (h : s.hashset.length = 0) (c m : Nat) :
    Iter.next ⟨s, c⟩ = (Step.done, ⟨⟨s.hashset, s.keys, 0⟩, 0⟩)
  ∧ yields (Iter.runN ⟨s, c⟩ m).1 = [] := by
  constructor
  · have h0 : startIdx s = 0 := by rw [startIdx, if_pos (by omega)]
    rw [next_done s c (by omega), h0]
  · rcases Nat.eq_zero_or_pos m with hm0 | hm1
    · subst hm0
      rfl
    · rw [show (Iter.runN ⟨s, c⟩ m).1 = List.replicate m Step.done from by
          rw [runN_empty m s c h hm1],
        yields_replicate_done]

/-! ### Insert-only operation sequences (for C10) -/

theorem applyOps_cons (s : WrappingHashSet α) (op : NROp α)
    (rest : List (NROp α)) :
    applyOps s (op :: rest) = applyOps (NROp.apply s op) rest := rfl

theorem insert_pos (s : WrappingHashSet α) (a : α) :
    (WrappingHashSet.insert s a).2.pos = s.pos := by
  rw [WrappingHashSet.insert]
  split <;> rfl

theorem applyOps_keys (ops : List (NROp α)) : ∀ s : WrappingHashSet α,
    (applyOps s ops).keys = s.keys ++ okInserts s ops := by
  induction ops with
  | nil =>
      intro s
      show s.keys = s.keys ++ okInserts s []
      rw [okInserts, List.append_nil]
  | cons op rest ih =>
      intro s
      rw [applyOps_cons]
      cases op with
      | ins a =>
          by_cases hm : a ∈ s.hashset
          · have hins : WrappingHashSet.insert s a = (false, s) := by
              rw [WrappingHashSet.insert, if_pos hm]
            have hfalse : ¬ ((WrappingHashSet.insert s a).1 = true) := by
              rw [hins]
              simp
            rw [show NROp.apply s (NROp.ins a) = (WrappingHashSet.insert s a).2 from rfl,
              hins, ih s]
            simp only [okInserts]
            rw [if_neg hfalse]
          · have hins : WrappingHashSet.insert s a
                = (true, ⟨s.hashset ++ [a], s.keys ++ [a], s.pos⟩) := by
              rw [WrappingHashSet.insert, if_neg hm]
            have htrue : (WrappingHashSet.insert s a).1 = true := by
              rw [hins]
            rw [show NROp.apply s (NROp.ins a) = (WrappingHashSet.insert s a).2 from rfl,
              hins, ih ⟨s.hashset ++ [a], s.keys ++ [a], s.pos⟩]
            simp only [okInserts]
            rw [if_pos htrue, hins, List.append_assoc]
            rfl
      | run m =>
          rw [show NROp.apply s (NROp.run m) = (Iter.runN s.iter m).2.whs from rfl,
            ih (Iter.runN s.iter m).2.whs, runN_keys m s.iter]
          simp only [okInserts]
          rfl

theorem applyOps_reachable (ops : List (NROp α)) : ∀ s : WrappingHashSet α,
    Reachable s → Reachable (applyOps s ops) := by
  induction ops with
  | nil =>
      intro s h
      exact h
  | cons op rest ih =>
      intro s h
      rw [applyOps_cons]
      apply ih
      cases op with
      | ins a => exact Reachable.ins a h
      | run m => exact Reachable.run m h

theorem applyOps_ins_pos (vals : List α) : ∀ s : WrappingHashSet α,
    (applyOps s (vals.map NROp.ins)).pos = s.pos := by
  induction vals with
  | nil =>
      intro s
      rfl
  | cons a rest ih =>
      intro s
      rw [List.map_cons, applyOps_cons, ih (NROp.apply s (NROp.ins a))]
      exact insert_pos s a

/-- C10: for every remove-free operation history the ordered snapshot
equals the sequence of successfully inserted values in insertion order; and
the first full traversal of a freshly built set (insertions only) yields
those values in insertion order, then signals exhaustion. -/
theorem insertion_order (ops : List (NROp α)) (vals : List α) :
    (applyOps WrappingHashSet.new ops).keys = okInserts WrappingHashSet.new ops
  ∧ (Iter.runN (buildOf vals).iter ((buildOf vals).hashset.length + 1)).1
      = (okInserts WrappingHashSet.new (vals.map NROp.ins)).map Step.item
        ++ [Step.done] := by
  constructor
  · have h1 := applyOps_keys ops WrappingHashSet.new
    rw [show WrappingHashSet.new.keys = ([] : List α) from rfl,
      List.nil_append] at h1
    exact h1
  · have hre : Reachable (buildOf vals) :=
      applyOps_reachable (vals.map NROp.ins) WrappingHashSet.new Reachable.new
    have hinv := reachable_inv _ hre
    have hlen := inv_len _ hinv
    have hkeys : (buildOf vals).keys
        = okInserts WrappingHashSet.new (vals.map NROp.ins) := by
      have h1 := applyOps_keys (vals.map NROp.ins) WrappingHashSet.new
      rw [show WrappingHashSet.new.keys = ([] : List α) from rfl,
        List.nil_append] at h1
      exact h1
    have hpos : (buildOf vals).pos = 0 := applyOps_ins_pos vals WrappingHashSet.new
    rcases Nat.eq_zero_or_pos (buildOf vals).keys.length with h0 | hpos2
    · have hhs0 : (buildOf vals).hashset.length = 0 := by omega
      have e : (buildOf vals).hashset.length + 1 = 1 := by omega
      have hrun := runN_empty 1 (buildOf vals) 0 hhs0 (Nat.le_refl 1)
      have hok : okInserts WrappingHashSet.new (vals.map NROp.ins) = [] := by
        rw [← hkeys]
        exact List.length_eq_zero.mp h0
      rw [WrappingHashSet.iter, e,
        show (Iter.runN ⟨buildOf vals, 0⟩ 1).1 = List.replicate 1 Step.done from by
          rw [hrun],
        hok]
      rfl
    · have hfull := runN_full (buildOf vals) hlen hpos2
      have hidx : startIdx (buildOf vals) = 0 := by
        rw [startIdx, hpos, ite_self]
      rw [hlen,
        show (Iter.runN (buildOf vals).iter ((buildOf vals).keys.length + 1)).1
          = (rot (buildOf vals).keys (startIdx (buildOf vals))).map Step.item
            ++ [Step.done] from by rw [hfull],
        hidx, rot_zero, hkeys]

/-! ### Witnesses at concrete states -/

theorem reachable_wTwo : Reachable wTwo := by
  show Reachable ((WrappingHashSet.insert
    (WrappingHashSet.insert WrappingHashSet.new 10).2 20).2)
  exact Reachable.ins 20 (Reachable.ins 10 Reachable.new)

theorem reachable_wThree : Reachable wThree := by
  show Reachable ((Iter.runN (WrappingHashSet.iter
    (WrappingHashSet.insert (WrappingHashSet.insert
      (WrappingHashSet.insert WrappingHashSet.new 3).2 4).2 5).2) 1).2.whs)
  exact Reachable.run 1 (Reachable.ins 5 (Reachable.ins 4 (Reachable.ins 3 Reachable.new)))

theorem reachable_sCursor : Reachable sCursor := by
  show Reachable ((WrappingHashSet.remove
    (Iter.runN (WrappingHashSet.iter
      (WrappingHashSet.insert
        (WrappingHashSet.insert WrappingHashSet.new 0).2 1).2) 2).2.whs 0).2)
  exact Reachable.rem 0 (Reachable.run 2 (Reachable.ins 1 (Reachable.ins 0 Reachable.new)))

/-- Witness for C1: the wrap law applied to the concrete two-element set. -/
theorem wrap_law_witness :
    Reachable wTwo
  ∧ ((Iter.runN wTwo.iter (wTwo.hashset.length + 1)).1
      = (rot wTwo.keys (startIdx wTwo)).map Step.item ++ [Step.done]
    ∧ (yields (Iter.runN wTwo.iter (wTwo.hashset.length + 1)).1).length
        = wTwo.hashset.length
    ∧ (yields (Iter.runN wTwo.iter (wTwo.hashset.length + 1)).1).Nodup) :=
  ⟨reachable_wTwo, wrap_law wTwo reachable_wTwo⟩

/-- Witness for C2: the resume law applied to the concrete three-element set
with advanced cursor, abandoning the first session after one element. -/
theorem resume_law_witness :
    Reachable wThree
  ∧ 1 < wThree.keys.length
  ∧ ((Iter.runN wThree.iter 1).1
      = ((rot wThree.keys (startIdx wThree)).take 1).map Step.item
    ∧ (Iter.runN ((Iter.runN wThree.iter 1).2.whs.iter) (wThree.keys.length + 1)).1
        = ((rot wThree.keys (startIdx wThree)).drop 1
            ++ (rot wThree.keys (startIdx wThree)).take 1).map Step.item
          ++ [Step.done]
    ∧ (yields (Iter.runN wThree.iter 1).1
        ++ (yields (Iter.runN ((Iter.runN wThree.iter 1).2.whs.iter)
              (wThree.keys.length + 1)).1).take (wThree.keys.length - 1)).Nodup
    ∧ (yields (Iter.runN wThree.iter 1).1
        ++ (yields (Iter.runN ((Iter.runN wThree.iter 1).2.whs.iter)
              (wThree.keys.length + 1)).1).take
            (wThree.keys.length - 1)).Perm wThree.keys) :=
  ⟨reachable_wThree, by decide,
    resume_law wThree reachable_wThree 1 (by decide)⟩

/-- Witness for C3 (amended): a concrete remove-free state with the cursor
in bounds. -/
theorem cursor_bound_no_remove_witness :
    ReachableNR wThree ∧ wThree.pos ≤ wThree.keys.length := by
  have hre : ReachableNR wThree := by
    show ReachableNR ((Iter.runN (WrappingHashSet.iter
      (WrappingHashSet.insert (WrappingHashSet.insert
        (WrappingHashSet.insert WrappingHashSet.new 3).2 4).2 5).2) 1).2.whs)
    exact ReachableNR.run 1
      (ReachableNR.ins 5 (ReachableNR.ins 4 (ReachableNR.ins 3 ReachableNR.new)))
  exact ⟨hre, cursor_bound_no_remove wThree hre⟩

/-- Witness for C4: no out-of-bounds step in a four-call session on the
concrete two-element set. -/
theorem no_out_of_bounds_witness :
    Reachable wTwo ∧ Step.oob ∉ (Iter.runN wTwo.iter 4).1 :=
  ⟨reachable_wTwo, no_out_of_bounds wTwo reachable_wTwo 4⟩

/-- Witness for C5 at the concrete two-element set. -/
theorem members_ordered_agree_witness :
    Reachable wTwo
  ∧ (((∀ a : Nat, a ∈ wTwo.keys ↔ a ∈ wTwo.hashset) ∧ wTwo.keys.Nodup)
    ∧ ((∀ a : Nat, a ∈ (WrappingHashSet.insert wTwo 10).2.keys
          ↔ a ∈ (WrappingHashSet.insert wTwo 10).2.hashset)
        ∧ (WrappingHashSet.insert wTwo 10).2.keys.Nodup)
    ∧ ((∀ a : Nat, a ∈ (WrappingHashSet.remove wTwo 10).2.keys
          ↔ a ∈ (WrappingHashSet.remove wTwo 10).2.hashset)
        ∧ (WrappingHashSet.remove wTwo 10).2.keys.Nodup)) :=
  ⟨reachable_wTwo, members_ordered_agree wTwo reachable_wTwo 10⟩

/-- Witness for C6: inserting the fresh value 30 into the concrete
two-element set. -/
theorem insert_spec_witness :
    Reachable wTwo
  ∧ ((30 ∈ wTwo.hashset → WrappingHashSet.insert wTwo 30 = (false, wTwo))
    ∧ (30 ∉ wTwo.hashset →
        (WrappingHashSet.insert wTwo 30).1 = true
        ∧ (∀ x : Nat, x ∈ (WrappingHashSet.insert wTwo 30).2.hashset
            ↔ x ∈ wTwo.hashset ∨ x = 30)
        ∧ (WrappingHashSet.insert wTwo 30).2.keys = wTwo.keys ++ [30]
        ∧ (WrappingHashSet.insert wTwo 30).2.pos = wTwo.pos
        ∧ (WrappingHashSet.insert (WrappingHashSet.insert wTwo 30).2 30).1 = false
        ∧ (yields (Iter.runN ((WrappingHashSet.insert wTwo 30).2.iter)
              ((WrappingHashSet.insert wTwo 30).2.hashset.length + 1)).1).count 30
            = 1)) :=
  ⟨reachable_wTwo, insert_spec wTwo reachable_wTwo 30⟩

/-- Witness for C7: removing the present value 10 from the concrete
two-element set. -/
theorem remove_spec_witness :
    Reachable wTwo
  ∧ ((10 ∈ wTwo.hashset →
      (WrappingHashSet.remove wTwo 10).1 = true
      ∧ (∀ x : Nat, x ∈ (WrappingHashSet.remove wTwo 10).2.hashset
          ↔ x ∈ wTwo.hashset ∧ x ≠ 10)
      ∧ (∀ x : Nat, x ∈ (WrappingHashSet.remove wTwo 10).2.keys
          ↔ x ∈ (WrappingHashSet.remove wTwo 10).2.hashset)
      ∧ (WrappingHashSet.remove wTwo 10).2.pos = wTwo.pos)
    ∧ (10 ∉ wTwo.hashset → WrappingHashSet.remove wTwo 10 = (false, wTwo))) :=
  ⟨reachable_wTwo, remove_spec wTwo reachable_wTwo 10⟩

/-- Witness for C8: the clamped traversal after the concrete removal that
left the cursor at 2 with only one key. -/
theorem post_removal_clamp_witness :
    Reachable sCursor
  ∧ sCursor.keys.length < sCursor.pos
  ∧ ((Iter.runN sCursor.iter (sCursor.keys.length + 1)).1
      = sCursor.keys.map Step.item ++ [Step.done]
    ∧ (Iter.next sCursor.iter).2.whs.pos = min 1 sCursor.keys.length) :=
  ⟨reachable_sCursor, by decide,
    post_removal_clamp sCursor reachable_sCursor (by decide)⟩

/-- Witness for C9 (amended): the concrete empty-set state with nonzero
cursor, an arbitrary session count 5, and a three-call session. -/
theorem empty_set_exhaustion_witness :
    sEmptyPos.hashset.length = 0
  ∧ (Iter.next ⟨sEmptyPos, 5⟩
      = (Step.done, ⟨⟨sEmptyPos.hashset, sEmptyPos.keys, 0⟩, 0⟩)
    ∧ yields (Iter.runN ⟨sEmptyPos, 5⟩ 3).1 = []) :=
  ⟨by decide, empty_set_exhaustion sEmptyPos (by decide) 5 3⟩

end WrappingHS

